import Mathlib

/-!
Verification of the numerical core of the market-maker repository: the
Avellaneda-Stoikov quoting engine (`strategy/avellaneda_stoikov.rs`), the
volatility estimators (`market_state/volatility.rs`), and the inventory and
PnL accounting (`position/inventory.rs`, `position/pnl.rs`).

Modelling conventions, fixed once for the whole file:

* The source's fixed-point decimal type (`rust_decimal::Decimal`) is modelled
  as `ℚ`.  The spec's data model describes the type as an arbitrary-precision
  decimal, so the 96-bit range and 28-digit scale limits of the concrete
  representation are idealised away; every arithmetic operation of the source
  maps to the exact rational operation.
* The float-mediated transcendental helpers `decimal_ln` and `decimal_sqrt`
  of `types/decimal.rs` have no exact rational value, so the embedding is
  parameterised by stand-ins `lnf sqrtf : ℚ → Option ℚ`; a `none` result
  models the `NumericalError` path of those helpers.  Theorems that need
  facts about the real logarithm or square root state them as hypotheses on
  the stand-in (e.g. that `lnf` succeeds on positive arguments, or that
  `sqrtf` of a positive value is positive); witnesses instantiate the
  stand-ins with concrete computable functions enjoying those facts.
* `decimal_powi` is used by the source only with exponent 2; it is modelled
  as exact squaring, which never fails on `ℚ`.
* A `rust_decimal` division panics on a zero divisor.  Inside the volatility
  estimators a zero divisor is reachable, so divisions there are modelled by
  `decDiv`, which returns the dedicated error `MMErr.divisionByZero` in that
  case.  In the quoting engine and in `update_fill` every executed division
  has a divisor that is provably nonzero (validated positive parameters,
  nonzero constants, or the branch condition), so plain `ℚ` division is used
  there.
* The source's error enum carries message strings; the strings are dropped,
  keeping one constructor per error kind.
-/

/-- Error kinds of the source's `MMError`, plus `divisionByZero`, which stands
for the panic a `rust_decimal` division raises on a zero divisor. -/
inductive MMErr where
  | invalidConfiguration
  | invalidMarketState
  | invalidQuoteGeneration
  | numericalError
  | divisionByZero
deriving DecidableEq, Repr

/-- Lifts the result of a transcendental stand-in to the source's result type:
`None` becomes `MMError::NumericalError`, as in `decimal_ln`/`decimal_sqrt`. -/
def liftNum : Option ℚ → Except MMErr ℚ
  | some v => .ok v
  | none => .error .numericalError

/-- `rust_decimal` division: panics (modelled as `divisionByZero`) when the
divisor is zero, otherwise exact division. -/
def decDiv (x y : ℚ) : Except MMErr ℚ :=
  if y = 0 then .error .divisionByZero else .ok (x / y)

/-- `SECONDS_PER_MILLISECOND` of `avellaneda_stoikov.rs` (0.001). -/
def SECONDS_PER_MILLISECOND : ℚ := 1 / 1000

/-- `SECONDS_PER_YEAR` of `avellaneda_stoikov.rs`. -/
def SECONDS_PER_YEAR : ℚ := 31536000

/-- The time conversion both quoting functions perform:
`(time_to_terminal_ms * SECONDS_PER_MILLISECOND) / SECONDS_PER_YEAR`. -/
def time_to_terminal_years (time_to_terminal_ms : ℕ) : ℚ :=
  ((time_to_terminal_ms : ℚ) * SECONDS_PER_MILLISECOND) / SECONDS_PER_YEAR

/-- `decimal_powi(x, 2)`: the float round-trip of the source is idealised to
exact squaring (see the header); on `ℚ` it cannot fail. -/
def decimal_powi2 (x : ℚ) : Except MMErr ℚ := .ok (x * x)

/-- `calculate_reservation_price` of `avellaneda_stoikov.rs`. -/
def calculate_reservation_price (mid_price inventory risk_aversion volatility : ℚ)
    (time_to_terminal_ms : ℕ) : Except MMErr ℚ :=
  if mid_price ≤ 0 then .error .invalidMarketState
  else if volatility ≤ 0 then .error .invalidMarketState
  else if risk_aversion ≤ 0 then .error .invalidConfiguration
  else
    match decimal_powi2 volatility with
    | .error e => .error e
    | .ok volatility_squared =>
      .ok (mid_price - inventory * risk_aversion * volatility_squared *
        time_to_terminal_years time_to_terminal_ms)

/-- `calculate_optimal_spread` of `avellaneda_stoikov.rs`, parameterised by
the `decimal_ln` stand-in. -/
def calculate_optimal_spread (lnf : ℚ → Option ℚ) (risk_aversion volatility : ℚ)
    (time_to_terminal_ms : ℕ) (order_intensity : ℚ) : Except MMErr ℚ :=
  if risk_aversion ≤ 0 then .error .invalidConfiguration
  else if volatility ≤ 0 then .error .invalidConfiguration
  else if order_intensity ≤ 0 then .error .invalidConfiguration
  else
    match decimal_powi2 volatility with
    | .error e => .error e
    | .ok volatility_squared =>
      match liftNum (lnf (1 + risk_aversion / order_intensity)) with
      | .error e => .error e
      | .ok adverse_selection_ln =>
        let spread := risk_aversion * volatility_squared *
            time_to_terminal_years time_to_terminal_ms +
          (2 / risk_aversion) * adverse_selection_ln
        if spread < 0 then .error .numericalError else .ok spread

/-- `calculate_optimal_quotes` of `avellaneda_stoikov.rs`. -/
def calculate_optimal_quotes (lnf : ℚ → Option ℚ)
    (mid_price inventory risk_aversion volatility : ℚ)
    (time_to_terminal_ms : ℕ) (order_intensity : ℚ) : Except MMErr (ℚ × ℚ) :=
  match calculate_reservation_price mid_price inventory risk_aversion volatility
      time_to_terminal_ms with
  | .error e => .error e
  | .ok reservation_price =>
    match calculate_optimal_spread lnf risk_aversion volatility time_to_terminal_ms
        order_intensity with
    | .error e => .error e
    | .ok spread =>
      let bid_price := reservation_price - spread / 2
      let ask_price := reservation_price + spread / 2
      if ask_price ≤ bid_price then .error .invalidQuoteGeneration
      else if bid_price ≤ 0 then .error .invalidQuoteGeneration
      else .ok (bid_price, ask_price)

/-- `InventoryPosition` of `position/inventory.rs`. -/
structure InventoryPosition where
  quantity : ℚ
  avg_entry_price : ℚ
  last_update : ℕ
deriving DecidableEq, Repr

/-- `InventoryPosition::new`: the flat position. -/
def InventoryPosition.new : InventoryPosition := ⟨0, 0, 0⟩

/-- `InventoryPosition::update_fill`.  The source mutates the three fields in
place; the model returns the post-state.  The final `if` reproduces the
flat-position clean-up that runs after the quantity is updated. -/
def InventoryPosition.update_fill (p : InventoryPosition)
    (fill_quantity fill_price : ℚ) (timestamp : ℕ) : InventoryPosition :=
  let new_quantity := p.quantity + fill_quantity
  let avg1 :=
    if (0 < p.quantity ∧ new_quantity < 0) ∨ (p.quantity < 0 ∧ 0 < new_quantity) then
      fill_price
    else if |p.quantity| < |new_quantity| then
      (p.quantity * p.avg_entry_price + fill_quantity * fill_price) / new_quantity
    else p.avg_entry_price
  { quantity := new_quantity
    avg_entry_price := if new_quantity = 0 then 0 else avg1
    last_update := timestamp }

/-- A sequence of `update_fill` calls, each fill being
(fill_quantity, fill_price, timestamp), applied in order. -/
def applyFills (fills : List (ℚ × ℚ × ℕ)) (p : InventoryPosition) : InventoryPosition :=
  fills.foldl (fun s f => s.update_fill f.1 f.2.1 f.2.2) p

/-- `PnL` of `position/pnl.rs`. -/
structure PnL where
  realized : ℚ
  unrealized : ℚ
  total : ℚ
deriving DecidableEq, Repr

/-- `PnL::new`: all fields zero. -/
def PnL.new : PnL := ⟨0, 0, 0⟩

/-- `PnL::update`. -/
def PnL.update (_p : PnL) (realized unrealized : ℚ) : PnL :=
  ⟨realized, unrealized, realized + unrealized⟩

/-- `PnL::add_realized`. -/
def PnL.add_realized (p : PnL) (amount : ℚ) : PnL :=
  ⟨p.realized + amount, p.unrealized, p.realized + amount + p.unrealized⟩

/-- `PnL::set_unrealized`. -/
def PnL.set_unrealized (p : PnL) (amount : ℚ) : PnL :=
  ⟨p.realized, amount, p.realized + amount⟩

/-- One call to a mutating `PnL` method. -/
inductive PnLOp where
  | update (realized unrealized : ℚ)
  | addRealized (amount : ℚ)
  | setUnrealized (amount : ℚ)

/-- Dispatches one `PnLOp` to the corresponding method. -/
def applyPnLOp (p : PnL) : PnLOp → PnL
  | .update r u => p.update r u
  | .addRealized a => p.add_realized a
  | .setUnrealized a => p.set_unrealized a

/-- A sequence of mutating `PnL` calls applied in order. -/
def applyPnLOps (p : PnL) (ops : List PnLOp) : PnL :=
  ops.foldl applyPnLOp p

/-- `VolatilityEstimator::get_annualization_factor`: the custom factor when
one was set, otherwise `decimal_sqrt(252)`. -/
def get_annualization_factor (sqrtf : ℚ → Option ℚ) :
    Option ℚ → Except MMErr ℚ
  | some factor => .ok factor
  | none => liftNum (sqrtf 252)

/-- The log-return loop shared verbatim by `calculate_simple` and
`calculate_ewma`: for each consecutive pair, first the positivity check on
both prices (`InvalidMarketState`), then `decimal_ln` of the ratio. -/
def logReturns (lnf : ℚ → Option ℚ) : List ℚ → Except MMErr (List ℚ)
  | p0 :: p1 :: rest =>
    if p1 ≤ 0 ∨ p0 ≤ 0 then .error .invalidMarketState
    else
      match lnf (p1 / p0) with
      | none => .error .numericalError
      | some r =>
        match logReturns lnf (p1 :: rest) with
        | .error e => .error e
        | .ok rs => .ok (r :: rs)
  | _ => .ok []

/-- The squared deviations from `mean`, summed, as both estimators compute
them (`(r - mean) * (r - mean)`, summed over the list). -/
def squaredDeviations (rs : List ℚ) (mean : ℚ) : ℚ :=
  (rs.map (fun r => (r - mean) * (r - mean))).sum

/-- `VolatilityEstimator::calculate_simple`.  The two divisions reproduce the
source's `sum / Decimal::from(log_returns.len())` and
`squared_deviations / Decimal::from(log_returns.len() - 1)`; the latter
subtraction is the source's `usize` subtraction, hence truncated. -/
def calculate_simple (lnf sqrtf : ℚ → Option ℚ) (annualization_factor : Option ℚ)
    (prices : List ℚ) : Except MMErr ℚ :=
  if prices.length < 2 then .error .invalidMarketState
  else
    match logReturns lnf prices with
    | .error e => .error e
    | .ok rs =>
      match decDiv rs.sum (rs.length : ℚ) with
      | .error e => .error e
      | .ok mean =>
        match decDiv (squaredDeviations rs mean) ((rs.length - 1 : ℕ) : ℚ) with
        | .error e => .error e
        | .ok variance =>
          match sqrtf variance with
          | none => .error .numericalError
          | some std_dev =>
            match get_annualization_factor sqrtf annualization_factor with
            | .error e => .error e
            | .ok factor => .ok (std_dev * factor)

/-- Sample variance with n-1 denominator, written from the spec's words:
mean of the list, squared deviations, divided by `n - 1` (rational
subtraction, as the spec's mathematics has it). -/
def sampleVarianceSpec (rs : List ℚ) : ℚ :=
  squaredDeviations rs (rs.sum / (rs.length : ℚ)) / ((rs.length : ℚ) - 1)

/-- The seed variance of `calculate_ewma`: the sample variance of the first
five log returns when at least five exist, otherwise of all of them, with
the source's literal divisors 5 and 4 in the first branch and the `usize`
subtraction `len - 1` in the second. -/
def ewmaSeed (rs : List ℚ) : Except MMErr ℚ :=
  if 5 ≤ rs.length then
    match decDiv (rs.take 5).sum 5 with
    | .error e => .error e
    | .ok mean => decDiv (squaredDeviations (rs.take 5) mean) 4
  else
    match decDiv rs.sum (rs.length : ℚ) with
    | .error e => .error e
    | .ok mean => decDiv (squaredDeviations rs mean) ((rs.length - 1 : ℕ) : ℚ)

/-- One step of the EWMA recursion:
`variance := lambda * variance + (1 - lambda) * (r * r)`. -/
def ewmaStep (lambda variance r : ℚ) : ℚ :=
  lambda * variance + (1 - lambda) * (r * r)

/-- `VolatilityEstimator::calculate_ewma`. -/
def calculate_ewma (lnf sqrtf : ℚ → Option ℚ) (annualization_factor : Option ℚ)
    (prices : List ℚ) (lambda : ℚ) : Except MMErr ℚ :=
  if prices.length < 2 then .error .invalidMarketState
  else if lambda ≤ 0 ∨ 1 ≤ lambda then .error .invalidConfiguration
  else
    match logReturns lnf prices with
    | .error e => .error e
    | .ok rs =>
      match ewmaSeed rs with
      | .error e => .error e
      | .ok initial_variance =>
        let variance := rs.foldl (ewmaStep lambda) initial_variance
        match sqrtf variance with
        | none => .error .numericalError
        | some std_dev =>
          match get_annualization_factor sqrtf annualization_factor with
          | .error e => .error e
          | .ok factor => .ok (std_dev * factor)

/-- The loop body of `calculate_parkinson`: per index, positivity of both
prices, then `high >= low`, then the squared log range, accumulated. -/
def parkinsonSum (lnf : ℚ → Option ℚ) : List ℚ → List ℚ → Except MMErr ℚ
  | h :: hs, l :: ls =>
    if h ≤ 0 ∨ l ≤ 0 then .error .invalidMarketState
    else if h < l then .error .invalidMarketState
    else
      match lnf (h / l) with
      | none => .error .numericalError
      | some r =>
        match parkinsonSum lnf hs ls with
        | .error e => .error e
        | .ok s => .ok (r * r + s)
  | _, _ => .ok 0

/-- `VolatilityEstimator::calculate_parkinson`. -/
def calculate_parkinson (lnf sqrtf : ℚ → Option ℚ) (annualization_factor : Option ℚ)
    (high_prices low_prices : List ℚ) : Except MMErr ℚ :=
  if high_prices.length ≠ low_prices.length then .error .invalidMarketState
  else if high_prices = [] then .error .invalidMarketState
  else
    match parkinsonSum lnf high_prices low_prices with
    | .error e => .error e
    | .ok sum_squared =>
      match liftNum (lnf 2) with
      | .error e => .error e
      | .ok ln_2 =>
        match decDiv sum_squared (4 * (high_prices.length : ℚ) * ln_2) with
        | .error e => .error e
        | .ok variance =>
          match sqrtf variance with
          | none => .error .numericalError
          | some std_dev =>
            match get_annualization_factor sqrtf annualization_factor with
            | .error e => .error e
            | .ok factor => .ok (std_dev * factor)

/-- Modelled from the spec's words for `calculate_ewma` (§4.2): compute the
log returns; seed with the sample variance (n-1 denominator) of the first
five returns when at least five exist, otherwise of all returns; apply
`variance := lambda * variance + (1 - lambda) * r^2` once per log return in
order, including the seed returns; return the annualization factor times the
square root of the final variance. -/
def calculate_ewma_spec (lnf sqrtf : ℚ → Option ℚ) (annualization_factor : Option ℚ)
    (prices : List ℚ) (lambda : ℚ) : Except MMErr ℚ :=
  match logReturns lnf prices with
  | .error e => .error e
  | .ok rs =>
    let seed := if 5 ≤ rs.length then sampleVarianceSpec (rs.take 5)
      else sampleVarianceSpec rs
    let variance := rs.foldl (fun v r => lambda * v + (1 - lambda) * (r * r)) seed
    match sqrtf variance with
    | none => .error .numericalError
    | some std_dev =>
      match get_annualization_factor sqrtf annualization_factor with
      | .error e => .error e
      | .ok factor => .ok (factor * std_dev)

/-- Modelled from the spec's words for `calculate_parkinson` (§4.2): the sum
`Σ ln(H_i/L_i)^2` over the paired entries, with no validity checks. -/
def parkinsonSumSpec (lnf : ℚ → Option ℚ) : List (ℚ × ℚ) → Except MMErr ℚ
  | [] => .ok 0
  | (h, l) :: rest =>
    match lnf (h / l) with
    | none => .error .numericalError
    | some r =>
      match parkinsonSumSpec lnf rest with
      | .error e => .error e
      | .ok s => .ok (r * r + s)

/-- Modelled from the spec's words for `calculate_parkinson` (§4.2): computes
`Σ ln(H_i/L_i)^2`, divides by `4 * n * ln 2`, takes the square root, and
multiplies by the annualization factor. -/
def calculate_parkinson_spec (lnf sqrtf : ℚ → Option ℚ)
    (annualization_factor : Option ℚ)
    (high_prices low_prices : List ℚ) : Except MMErr ℚ :=
  match parkinsonSumSpec lnf (high_prices.zip low_prices) with
  | .error e => .error e
  | .ok sum_squared =>
    match liftNum (lnf 2) with
    | .error e => .error e
    | .ok ln_2 =>
      match sqrtf (sum_squared / (4 * (high_prices.length : ℚ) * ln_2)) with
      | none => .error .numericalError
      | some std_dev =>
        match get_annualization_factor sqrtf annualization_factor with
        | .error e => .error e
        | .ok factor => .ok (factor * std_dev)

/-- A concrete computable stand-in for `decimal_ln`, used by witnesses and
counterexamples.  It shares with the real logarithm the facts the theorems
assume: defined exactly on the positives, zero exactly at 1, positive
above 1. -/
def lnfC (x : ℚ) : Option ℚ :=
  if 0 < x then some (x - 1) else none

/-- A concrete computable stand-in for `decimal_sqrt`, used by witnesses and
counterexamples: defined exactly on the nonnegatives, positive on the
positives, zero at zero. -/
def sqrtfC (x : ℚ) : Option ℚ :=
  if 0 ≤ x then some x else none

theorem time_to_terminal_years_pos {tms : ℕ} (h : 0 < tms) :
    0 < time_to_terminal_years tms := by
  unfold time_to_terminal_years SECONDS_PER_MILLISECOND SECONDS_PER_YEAR
  have : (0 : ℚ) < (tms : ℚ) := by exact_mod_cast h
  positivity

theorem reservation_price_formula (mid inv γ σ : ℚ) (tms : ℕ)
    (hmid : 0 < mid) (hγ : 0 < γ) (hσ : 0 < σ) :
    calculate_reservation_price mid inv γ σ tms
      = .ok (mid - inv * γ * (σ * σ) * time_to_terminal_years tms) := by
  unfold calculate_reservation_price decimal_powi2
  rw [if_neg (not_le.mpr hmid), if_neg (not_le.mpr hσ), if_neg (not_le.mpr hγ)]

/-- C7: for every mid_price > 0, risk_aversion > 0, volatility > 0 and any
time_to_terminal_ms, `calculate_reservation_price` with inventory 0 returns
exactly the mid price. -/
theorem c7_reservation_price_flat_inventory
    (mid_price risk_aversion volatility : ℚ) (time_to_terminal_ms : ℕ)
    (hmid : 0 < mid_price) (hγ : 0 < risk_aversion) (hσ : 0 < volatility) :
    calculate_reservation_price mid_price 0 risk_aversion volatility
      time_to_terminal_ms = .ok mid_price := by
  rw [reservation_price_formula _ _ _ _ _ hmid hγ hσ]
  norm_num

theorem c7_witness :
    (0 : ℚ) < 100 ∧ (0 : ℚ) < 1 ∧
      calculate_reservation_price 100 0 1 1 3600000 = .ok 100 :=
  ⟨by norm_num, by norm_num,
    c7_reservation_price_flat_inventory 100 1 1 3600000 (by norm_num) (by norm_num)
      (by norm_num)⟩

/-- C8: for fixed mid_price > 0, risk_aversion > 0, volatility > 0, and
time_to_terminal_ms > 0, `calculate_reservation_price` is strictly decreasing
in the inventory argument: if q1 < q2 and both calls succeed, the result for
q2 is strictly below the result for q1. -/
theorem c8_reservation_price_strictly_decreasing
    (mid_price risk_aversion volatility q1 q2 r1 r2 : ℚ) (time_to_terminal_ms : ℕ)
    (hmid : 0 < mid_price) (hγ : 0 < risk_aversion) (hσ : 0 < volatility)
    (ht : 0 < time_to_terminal_ms) (hlt : q1 < q2)
    (h1 : calculate_reservation_price mid_price q1 risk_aversion volatility
      time_to_terminal_ms = .ok r1)
    (h2 : calculate_reservation_price mid_price q2 risk_aversion volatility
      time_to_terminal_ms = .ok r2) :
    r2 < r1 := by
  rw [reservation_price_formula _ _ _ _ _ hmid hγ hσ] at h1 h2
  injection h1 with e1
  injection h2 with e2
  have hT := time_to_terminal_years_pos ht
  rw [← e1, ← e2]
  have hfac : 0 < risk_aversion * (volatility * volatility) *
      time_to_terminal_years time_to_terminal_ms := by positivity
  nlinarith [mul_lt_mul_of_pos_right hlt hfac]

theorem c8_witness : ∃ r1 r2 : ℚ,
    calculate_reservation_price 100 0 1 1 3600000 = .ok r1 ∧
    calculate_reservation_price 100 10 1 1 3600000 = .ok r2 ∧ r2 < r1 := by
  refine ⟨100 - 0 * 1 * (1 * 1) * time_to_terminal_years 3600000,
    100 - 10 * 1 * (1 * 1) * time_to_terminal_years 3600000,
    reservation_price_formula 100 0 1 1 3600000 (by norm_num) (by norm_num)
      (by norm_num),
    reservation_price_formula 100 10 1 1 3600000 (by norm_num) (by norm_num)
      (by norm_num), ?_⟩
  exact c8_reservation_price_strictly_decreasing 100 1 1 0 10 _ _ 3600000
    (by norm_num) (by norm_num) (by norm_num) (by norm_num) (by norm_num)
    (reservation_price_formula 100 0 1 1 3600000 (by norm_num) (by norm_num)
      (by norm_num))
    (reservation_price_formula 100 10 1 1 3600000 (by norm_num) (by norm_num)
      (by norm_num))

/-- C9: the invariant `total = realized + unrealized` holds after every
sequence of mutations starting from `PnL::new`, and indeed after any single
mutation of any state; `add_realized` changes `realized` by exactly the given
amount and leaves `unrealized` unchanged; `set_unrealized` sets `unrealized`
to exactly the given value and leaves `realized` unchanged. -/
theorem c9_pnl_invariant :
    (∀ ops : List PnLOp, (applyPnLOps PnL.new ops).total =
      (applyPnLOps PnL.new ops).realized + (applyPnLOps PnL.new ops).unrealized) ∧
    (∀ (p : PnL) (op : PnLOp), (applyPnLOp p op).total =
      (applyPnLOp p op).realized + (applyPnLOp p op).unrealized) ∧
    (∀ (p : PnL) (d : ℚ), (p.add_realized d).realized = p.realized + d ∧
      (p.add_realized d).unrealized = p.unrealized) ∧
    (∀ (p : PnL) (v : ℚ), (p.set_unrealized v).unrealized = v ∧
      (p.set_unrealized v).realized = p.realized) := by
  have hop : ∀ (p : PnL) (op : PnLOp), (applyPnLOp p op).total =
      (applyPnLOp p op).realized + (applyPnLOp p op).unrealized := by
    intro p op
    cases op <;> rfl
  refine ⟨?_, hop, fun p d => ⟨rfl, rfl⟩, fun p v => ⟨rfl, rfl⟩⟩
  intro ops
  have key : ∀ (ops : List PnLOp) (p : PnL),
      p.total = p.realized + p.unrealized →
      (applyPnLOps p ops).total =
        (applyPnLOps p ops).realized + (applyPnLOps p ops).unrealized := by
    intro ops
    induction ops with
    | nil => intro p hp; exact hp
    | cons op rest ih =>
      intro p _
      exact ih (applyPnLOp p op) (hop p op)
  exact key ops PnL.new (by norm_num [PnL.new])

/-- C10: in `update_fill`, whenever the weighted-average branch is taken (no
sign crossing and the absolute quantity strictly increases), the divisor
`quantity + fill_quantity` is nonzero, and the new average entry price is the
quantity-weighted average; `update_fill` performs no other division. -/
theorem c10_update_fill_division_safe (p : InventoryPosition)
    (fill_quantity fill_price : ℚ) (timestamp : ℕ)
    (hnc : ¬ ((0 < p.quantity ∧ p.quantity + fill_quantity < 0) ∨
      (p.quantity < 0 ∧ 0 < p.quantity + fill_quantity)))
    (hinc : |p.quantity| < |p.quantity + fill_quantity|) :
    p.quantity + fill_quantity ≠ 0 ∧
    (p.update_fill fill_quantity fill_price timestamp).avg_entry_price =
      (p.quantity * p.avg_entry_price + fill_quantity * fill_price) /
        (p.quantity + fill_quantity) := by
  have hne : p.quantity + fill_quantity ≠ 0 := by
    intro h0
    rw [h0] at hinc
    simp at hinc
    exact absurd hinc (not_lt.mpr (abs_nonneg _))
  refine ⟨hne, ?_⟩
  unfold InventoryPosition.update_fill
  simp only [if_neg hne, if_neg hnc, if_pos hinc]

theorem c10_witness :
    (0 : ℚ) + 10 ≠ 0 ∧
    (InventoryPosition.new.update_fill 10 100 1).avg_entry_price =
      ((0 : ℚ) * 0 + 10 * 100) / ((0 : ℚ) + 10) :=
  c10_update_fill_division_safe InventoryPosition.new 10 100 1
    (by norm_num [InventoryPosition.new]) (by norm_num [InventoryPosition.new])

/-- C2: `update_fill` sets the quantity to `quantity + fill_quantity` and the
last update to the given timestamp, and sets the average entry price by
exactly one of three mutually exclusive cases evaluated in order — sign
crossing resets it to the fill price, a strict absolute increase takes the
quantity-weighted average, and otherwise it is unchanged — with the average
finally forced to 0 whenever the resulting quantity is 0. -/
theorem c2_update_fill_cases (p : InventoryPosition)
    (fill_quantity fill_price : ℚ) (timestamp : ℕ) :
    (p.update_fill fill_quantity fill_price timestamp).quantity =
      p.quantity + fill_quantity ∧
    (p.update_fill fill_quantity fill_price timestamp).last_update = timestamp ∧
    (((0 < p.quantity ∧ p.quantity + fill_quantity < 0) ∨
        (p.quantity < 0 ∧ 0 < p.quantity + fill_quantity)) →
      (p.update_fill fill_quantity fill_price timestamp).avg_entry_price =
        fill_price) ∧
    (¬ ((0 < p.quantity ∧ p.quantity + fill_quantity < 0) ∨
        (p.quantity < 0 ∧ 0 < p.quantity + fill_quantity)) →
      |p.quantity| < |p.quantity + fill_quantity| →
      (p.update_fill fill_quantity fill_price timestamp).avg_entry_price =
        (p.quantity * p.avg_entry_price + fill_quantity * fill_price) /
          (p.quantity + fill_quantity)) ∧
    (¬ ((0 < p.quantity ∧ p.quantity + fill_quantity < 0) ∨
        (p.quantity < 0 ∧ 0 < p.quantity + fill_quantity)) →
      ¬ (|p.quantity| < |p.quantity + fill_quantity|) →
      p.quantity + fill_quantity ≠ 0 →
      (p.update_fill fill_quantity fill_price timestamp).avg_entry_price =
        p.avg_entry_price) ∧
    (p.quantity + fill_quantity = 0 →
      (p.update_fill fill_quantity fill_price timestamp).avg_entry_price = 0) := by
  unfold InventoryPosition.update_fill
  refine ⟨rfl, rfl, ?_, ?_, ?_, ?_⟩
  · intro hc
    have hne : p.quantity + fill_quantity ≠ 0 := by
      rcases hc with ⟨_, h⟩ | ⟨_, h⟩
      · exact ne_of_lt h
      · exact (ne_of_lt h).symm
    simp only [if_neg hne, if_pos hc]
  · intro hnc hinc
    have hne : p.quantity + fill_quantity ≠ 0 := by
      intro h0
      rw [h0] at hinc
      simp at hinc
      exact absurd hinc (not_lt.mpr (abs_nonneg _))
    simp only [if_neg hne, if_neg hnc, if_pos hinc]
  · intro hnc hninc hne
    simp only [if_neg hne, if_neg hnc, if_neg hninc]
  · intro h0
    simp only [if_pos h0]

theorem c2_witness :
    (InventoryPosition.new.update_fill 10 100 1000).quantity = (0 : ℚ) + 10 ∧
    (InventoryPosition.new.update_fill 10 100 1000).last_update = 1000 ∧
    (((0 : ℚ) < 0 ∧ (0 : ℚ) + 10 < 0) ∨ ((0 : ℚ) < 0 ∧ (0 : ℚ) < 0 + 10) →
      (InventoryPosition.new.update_fill 10 100 1000).avg_entry_price = 100) ∧
    (¬ (((0 : ℚ) < 0 ∧ (0 : ℚ) + 10 < 0) ∨ ((0 : ℚ) < 0 ∧ (0 : ℚ) < 0 + 10)) →
      |(0 : ℚ)| < |(0 : ℚ) + 10| →
      (InventoryPosition.new.update_fill 10 100 1000).avg_entry_price =
        ((0 : ℚ) * 0 + 10 * 100) / ((0 : ℚ) + 10)) ∧
    (¬ (((0 : ℚ) < 0 ∧ (0 : ℚ) + 10 < 0) ∨ ((0 : ℚ) < 0 ∧ (0 : ℚ) < 0 + 10)) →
      ¬ (|(0 : ℚ)| < |(0 : ℚ) + 10|) → (0 : ℚ) + 10 ≠ 0 →
      (InventoryPosition.new.update_fill 10 100 1000).avg_entry_price = 0) ∧
    ((0 : ℚ) + 10 = 0 →
      (InventoryPosition.new.update_fill 10 100 1000).avg_entry_price = 0) :=
  c2_update_fill_cases InventoryPosition.new 10 100 1000

theorem reservation_price_not_iqg (mid inv γ σ : ℚ) (tms : ℕ) :
    calculate_reservation_price mid inv γ σ tms ≠
      .error .invalidQuoteGeneration := by
  unfold calculate_reservation_price decimal_powi2
  split
  · simp
  · split
    · simp
    · split <;> simp

theorem optimal_spread_not_iqg (lnf : ℚ → Option ℚ) (γ σ : ℚ) (tms : ℕ) (k : ℚ) :
    calculate_optimal_spread lnf γ σ tms k ≠ .error .invalidQuoteGeneration := by
  unfold calculate_optimal_spread decimal_powi2 liftNum
  intro h
  split at h
  · simp at h
  · split at h
    · simp at h
    · split at h
      · simp at h
      · rcases hl : lnf (1 + γ / k) with - | v <;> rw [hl] at h
        · simp at h
        · simp only [] at h
          split at h <;> simp at h

theorem optimal_quotes_of_res_error (lnf : ℚ → Option ℚ)
    (mid inv γ σ : ℚ) (tms : ℕ) (k : ℚ) (e : MMErr)
    (hr : calculate_reservation_price mid inv γ σ tms = .error e) :
    calculate_optimal_quotes lnf mid inv γ σ tms k = .error e := by
  unfold calculate_optimal_quotes
  rw [hr]

theorem optimal_quotes_of_spread_error (lnf : ℚ → Option ℚ)
    (mid inv γ σ : ℚ) (tms : ℕ) (k : ℚ) (r : ℚ) (e : MMErr)
    (hr : calculate_reservation_price mid inv γ σ tms = .ok r)
    (hs : calculate_optimal_spread lnf γ σ tms k = .error e) :
    calculate_optimal_quotes lnf mid inv γ σ tms k = .error e := by
  unfold calculate_optimal_quotes
  rw [hr, hs]

theorem optimal_quotes_of_ok_ok (lnf : ℚ → Option ℚ)
    (mid inv γ σ : ℚ) (tms : ℕ) (k : ℚ) (r s : ℚ)
    (hr : calculate_reservation_price mid inv γ σ tms = .ok r)
    (hs : calculate_optimal_spread lnf γ σ tms k = .ok s) :
    calculate_optimal_quotes lnf mid inv γ σ tms k =
      (if r + s / 2 ≤ r - s / 2 then .error .invalidQuoteGeneration
        else if r - s / 2 ≤ 0 then .error .invalidQuoteGeneration
        else .ok (r - s / 2, r + s / 2)) := by
  unfold calculate_optimal_quotes
  rw [hr, hs]

/-- C1: for every input with positive mid price, volatility, risk aversion
and order intensity, whenever `calculate_optimal_quotes` returns a pair, the
bid is strictly below the ask and strictly positive; and it fails with
`InvalidQuoteGeneration` exactly when the reservation price and spread are
computed and the bid and ask derived from them as reservation minus/plus
half the spread satisfy bid >= ask or bid <= 0. -/
theorem c1_optimal_quotes (lnf : ℚ → Option ℚ)
    (mid_price inventory risk_aversion volatility : ℚ)
    (time_to_terminal_ms : ℕ) (order_intensity : ℚ)
    (hmid : 0 < mid_price) (hσ : 0 < volatility) (hγ : 0 < risk_aversion)
    (hk : 0 < order_intensity) :
    (∀ bid ask, calculate_optimal_quotes lnf mid_price inventory risk_aversion
        volatility time_to_terminal_ms order_intensity = .ok (bid, ask) →
      bid < ask ∧ 0 < bid) ∧
    (calculate_optimal_quotes lnf mid_price inventory risk_aversion volatility
        time_to_terminal_ms order_intensity = .error .invalidQuoteGeneration ↔
      ∃ r s, calculate_reservation_price mid_price inventory risk_aversion
          volatility time_to_terminal_ms = .ok r ∧
        calculate_optimal_spread lnf risk_aversion volatility time_to_terminal_ms
          order_intensity = .ok s ∧
        (r + s / 2 ≤ r - s / 2 ∨ r - s / 2 ≤ 0)) := by
  rcases hr : calculate_reservation_price mid_price inventory risk_aversion
      volatility time_to_terminal_ms with e | r
  · have heq := optimal_quotes_of_res_error lnf mid_price inventory risk_aversion
      volatility time_to_terminal_ms order_intensity e hr
    refine ⟨?_, ?_, ?_⟩
    · intro bid ask h
      rw [heq] at h
      simp at h
    · intro h
      rw [heq] at h
      injection h with h'
      subst h'
      exact absurd hr (reservation_price_not_iqg _ _ _ _ _)
    · rintro ⟨r, s, hres, -, -⟩
      simp at hres
  · rcases hs : calculate_optimal_spread lnf risk_aversion volatility
        time_to_terminal_ms order_intensity with e | s
    · have heq := optimal_quotes_of_spread_error lnf mid_price inventory
        risk_aversion volatility time_to_terminal_ms order_intensity r e hr hs
      refine ⟨?_, ?_, ?_⟩
      · intro bid ask h
        rw [heq] at h
        simp at h
      · intro h
        rw [heq] at h
        injection h with h'
        subst h'
        exact absurd hs (optimal_spread_not_iqg _ _ _ _ _)
      · rintro ⟨r', s', -, hsp, -⟩
        simp at hsp
    · have heq := optimal_quotes_of_ok_ok lnf mid_price inventory risk_aversion
        volatility time_to_terminal_ms order_intensity r s hr hs
      by_cases hba : r + s / 2 ≤ r - s / 2
      · rw [heq, if_pos hba]
        refine ⟨?_, ?_, ?_⟩
        · intro bid ask h
          simp at h
        · intro _
          exact ⟨r, s, rfl, rfl, Or.inl hba⟩
        · intro _
          rfl
      · by_cases hb0 : r - s / 2 ≤ 0
        · rw [heq, if_neg hba, if_pos hb0]
          refine ⟨?_, ?_, ?_⟩
          · intro bid ask h
            simp at h
          · intro _
            exact ⟨r, s, rfl, rfl, Or.inr hb0⟩
          · intro _
            rfl
        · rw [heq, if_neg hba, if_neg hb0]
          refine ⟨?_, ?_, ?_⟩
          · intro bid ask h
            injection h with h'
            have hb : bid = r - s / 2 := (congrArg Prod.fst h').symm
            have ha : ask = r + s / 2 := (congrArg Prod.snd h').symm
            rw [hb, ha]
            exact ⟨lt_of_not_le hba, lt_of_not_le hb0⟩
          · intro h
            simp at h
          · rintro ⟨r', s', hres, hsp, hbad⟩
            injection hres with hr'
            injection hsp with hs'
            subst hr'
            subst hs'
            rcases hbad with h | h
            · exact absurd h hba
            · exact absurd h hb0

theorem c1_witness :
    (∀ bid ask, calculate_optimal_quotes lnfC 100 0 1 1 0 1 = .ok (bid, ask) →
      bid < ask ∧ 0 < bid) ∧
    (calculate_optimal_quotes lnfC 100 0 1 1 0 1 = .error .invalidQuoteGeneration ↔
      ∃ r s, calculate_reservation_price 100 0 1 1 0 = .ok r ∧
        calculate_optimal_spread lnfC 1 1 0 1 = .ok s ∧
        (r + s / 2 ≤ r - s / 2 ∨ r - s / 2 ≤ 0)) :=
  c1_optimal_quotes lnfC 100 0 1 1 0 1 (by norm_num) (by norm_num) (by norm_num)
    (by norm_num)

theorem c3_counterexample :
    ¬ ((applyFills [(10, 0, 1)] InventoryPosition.new).quantity = 0 ↔
      (applyFills [(10, 0, 1)] InventoryPosition.new).avg_entry_price = 0) := by
  have h : applyFills [(10, 0, 1)] InventoryPosition.new =
      { quantity := 10, avg_entry_price := 0, last_update := 1 } := by
    show InventoryPosition.new.update_fill 10 0 1 = _
    unfold InventoryPosition.update_fill InventoryPosition.new
    norm_num
  rw [h]
  norm_num

/-- The strengthened inductive invariant for positions built from fills with
positive prices: a flat position has zero average entry price, and a non-flat
position has a strictly positive one. -/
def PosInv (p : InventoryPosition) : Prop :=
  (p.quantity = 0 → p.avg_entry_price = 0) ∧
  (p.quantity ≠ 0 → 0 < p.avg_entry_price)

theorem update_fill_posInv (p : InventoryPosition) (fq fp : ℚ) (ts : ℕ)
    (hp : PosInv p) (hfp : 0 < fp) :
    PosInv (p.update_fill fq fp ts) := by
  obtain ⟨-, hpos⟩ := hp
  unfold InventoryPosition.update_fill PosInv
  simp only []
  constructor
  · intro hq
    rw [if_pos hq]
  · intro hne
    rw [if_neg hne]
    by_cases hc : (0 < p.quantity ∧ p.quantity + fq < 0) ∨
        (p.quantity < 0 ∧ 0 < p.quantity + fq)
    · rw [if_pos hc]
      exact hfp
    · rw [if_neg hc]
      by_cases hinc : |p.quantity| < |p.quantity + fq|
      · rw [if_pos hinc]
        rcases lt_trichotomy p.quantity 0 with hq | hq | hq
        · have hnq : p.quantity + fq < 0 := by
            rcases lt_or_le 0 (p.quantity + fq) with h | h
            · exact absurd (Or.inr ⟨hq, h⟩) hc
            · exact lt_of_le_of_ne h hne
          have havg := hpos (ne_of_lt hq)
          have hnum : p.quantity * p.avg_entry_price + fq * fp < 0 := by
            have hfq : fq < 0 := by
              rw [abs_of_neg hq, abs_of_neg hnq] at hinc
              linarith
            have h1 := mul_neg_of_neg_of_pos hq havg
            have h2 := mul_neg_of_neg_of_pos hfq hfp
            linarith
          exact div_pos_iff.mpr (Or.inr ⟨hnum, hnq⟩)
        · have hfq : fq ≠ 0 := by
            intro h
            rw [hq, h] at hne
            exact hne (by norm_num)
          rw [hq]
          rw [hq] at hne
          rcases lt_or_gt_of_ne hfq with h | h
          · refine div_pos_iff.mpr (Or.inr ⟨?_, ?_⟩)
            · have := mul_neg_of_neg_of_pos h hfp
              linarith
            · linarith
          · refine div_pos_iff.mpr (Or.inl ⟨?_, ?_⟩)
            · have := mul_pos h hfp
              linarith
            · linarith
        · have hnq : 0 < p.quantity + fq := by
            rcases lt_or_le (p.quantity + fq) 0 with h | h
            · exact absurd (Or.inl ⟨hq, h⟩) hc
            · exact lt_of_le_of_ne h (Ne.symm hne)
          have havg := hpos (ne_of_gt hq)
          have hfq : 0 < fq := by
            rw [abs_of_pos hq, abs_of_pos hnq] at hinc
            linarith
          refine div_pos_iff.mpr (Or.inl ⟨?_, hnq⟩)
          have h1 := mul_pos hq havg
          have h2 := mul_pos hfq hfp
          linarith
      · rw [if_neg hinc]
        refine hpos ?_
        intro h
        rw [h] at hinc hne
        simp only [zero_add, abs_zero] at hinc hne
        exact hinc (abs_pos.mpr hne)

theorem applyFills_posInv (fills : List (ℚ × ℚ × ℕ)) :
    ∀ p, PosInv p → (∀ f ∈ fills, 0 < f.2.1) → PosInv (applyFills fills p) := by
  induction fills with
  | nil =>
    intro p hp _
    exact hp
  | cons f rest ih =>
    intro p hp hall
    have h1 : 0 < f.2.1 := hall f (List.mem_cons_self f rest)
    exact ih _ (update_fill_posInv p f.1 f.2.1 f.2.2 hp h1)
      (fun g hg => hall g (List.mem_cons_of_mem f hg))

/-- C3 (amended): starting from the flat position of `new`, every sequence of
`update_fill` calls whose fill prices are strictly positive leads to a state
satisfying `quantity = 0` iff `avg_entry_price = 0` (with arbitrary fill
prices the invariant fails, e.g. at a zero-price fill). -/
theorem c3_amended_invariant (fills : List (ℚ × ℚ × ℕ))
    (hpos : ∀ f ∈ fills, 0 < f.2.1) :
    ((applyFills fills InventoryPosition.new).quantity = 0 ↔
      (applyFills fills InventoryPosition.new).avg_entry_price = 0) := by
  have h := applyFills_posInv fills InventoryPosition.new
    ⟨fun _ => rfl, fun hq => absurd rfl hq⟩ hpos
  constructor
  · exact h.1
  · intro ha
    by_contra hq
    exact absurd ha (ne_of_gt (h.2 hq))

theorem c3_witness :
    ((applyFills [(10, 100, 1)] InventoryPosition.new).quantity = 0 ↔
      (applyFills [(10, 100, 1)] InventoryPosition.new).avg_entry_price = 0) :=
  c3_amended_invariant [(10, 100, 1)] (by norm_num)

theorem logReturns_cons_cons (lnf : ℚ → Option ℚ) (p0 p1 : ℚ)
    (rest rs : List ℚ) :
    logReturns lnf (p0 :: p1 :: rest) = .ok rs ↔
      ¬ (p1 ≤ 0 ∨ p0 ≤ 0) ∧ ∃ r rs', lnf (p1 / p0) = some r ∧
        logReturns lnf (p1 :: rest) = .ok rs' ∧ rs = r :: rs' := by
  constructor
  · intro h
    rw [logReturns] at h
    split at h
    · simp at h
    · rename_i hguard
      refine ⟨hguard, ?_⟩
      cases hl : lnf (p1 / p0) with
      | none =>
        rw [hl] at h
        simp at h
      | some r =>
        rw [hl] at h
        cases hrec : logReturns lnf (p1 :: rest) with
        | error e =>
          rw [hrec] at h
          simp at h
        | ok rs' =>
          rw [hrec] at h
          simp only [] at h
          injection h with h'
          exact ⟨r, rs', rfl, rfl, h'.symm⟩
  · rintro ⟨hguard, r, rs', hl, hrec, hrs⟩
    rw [logReturns, if_neg hguard, hl, hrec, hrs]

theorem logReturns_length (lnf : ℚ → Option ℚ) :
    ∀ ps rs : List ℚ, logReturns lnf ps = .ok rs → rs.length = ps.length - 1 := by
  intro ps
  induction ps with
  | nil =>
    intro rs h
    rw [logReturns] at h
    · injection h with h'
      subst h'
      rfl
    · intro _ _ _ h'
      simp at h'
  | cons p0 tl ih =>
    cases tl with
    | nil =>
      intro rs h
      rw [logReturns] at h
      · injection h with h'
        subst h'
        rfl
      · intro _ _ _ h'
        simp at h'
    | cons p1 rest =>
      intro rs h
      obtain ⟨-, r, rs', -, hrec, hrs⟩ := (logReturns_cons_cons lnf p0 p1 rest rs).mp h
      have hlen := ih rs' hrec
      subst hrs
      simp only [List.length_cons] at hlen ⊢
      omega

theorem logReturns_total (lnf : ℚ → Option ℚ)
    (hln : ∀ x, 0 < x → (lnf x).isSome) :
    ∀ ps : List ℚ, (∀ p ∈ ps, 0 < p) → ∃ rs, logReturns lnf ps = .ok rs := by
  intro ps
  induction ps with
  | nil =>
    intro _
    exact ⟨[], rfl⟩
  | cons p0 tl ih =>
    cases tl with
    | nil =>
      intro _
      exact ⟨[], rfl⟩
    | cons p1 rest =>
      intro hall
      have hp0 : 0 < p0 := hall p0 (by simp)
      have hp1 : 0 < p1 := hall p1 (by simp)
      obtain ⟨rs', hrec⟩ := ih (fun p hp => hall p (List.mem_cons_of_mem p0 hp))
      have hratio : 0 < p1 / p0 := div_pos hp1 hp0
      obtain ⟨r, hr⟩ := Option.isSome_iff_exists.mp (hln _ hratio)
      refine ⟨r :: rs', ?_⟩
      exact (logReturns_cons_cons lnf p0 p1 rest (r :: rs')).mpr
        ⟨by push_neg; exact ⟨hp1, hp0⟩, r, rs', hr, hrec, rfl⟩

theorem decDiv_ok (x y : ℚ) (hy : y ≠ 0) : decDiv x y = .ok (x / y) := by
  unfold decDiv
  rw [if_neg hy]

theorem ewmaSeed_spec (rs : List ℚ) (h2 : 2 ≤ rs.length) :
    ewmaSeed rs = .ok (if 5 ≤ rs.length then sampleVarianceSpec (rs.take 5)
      else sampleVarianceSpec rs) := by
  by_cases h5 : 5 ≤ rs.length
  · have hlt : (rs.take 5).length = 5 := by
      rw [List.length_take]
      omega
    rw [ewmaSeed, if_pos h5, if_pos h5, decDiv_ok _ _ (by norm_num : (5:ℚ) ≠ 0)]
    show decDiv (squaredDeviations (rs.take 5) ((rs.take 5).sum / 5)) 4 = _
    rw [decDiv_ok _ _ (by norm_num : (4:ℚ) ≠ 0)]
    unfold sampleVarianceSpec
    rw [hlt]
    norm_num
  · have hne : (rs.length : ℚ) ≠ 0 := Nat.cast_ne_zero.mpr (by omega)
    rw [ewmaSeed, if_neg h5, if_neg h5, decDiv_ok _ _ hne]
    show decDiv (squaredDeviations rs (rs.sum / (rs.length : ℚ)))
      ((rs.length - 1 : ℕ) : ℚ) = _
    rw [decDiv_ok _ _ (Nat.cast_ne_zero.mpr (by omega : rs.length - 1 ≠ 0))]
    unfold sampleVarianceSpec
    rw [Nat.cast_sub (by omega : 1 ≤ rs.length)]
    norm_num

/-- C5: for every list of at least 3 positive prices and decay factor
strictly between 0 and 1, `calculate_ewma` computes exactly what the spec
describes: seed from the sample variance (n-1 denominator) of the first five
log returns (or all of them when fewer than five exist), run the recursion
`variance := lambda * variance + (1 - lambda) * r^2` once per log return in
order (seed returns included), and return the annualization factor times the
square root of the final variance. -/
theorem c5_ewma_matches_spec (lnf sqrtf : ℚ → Option ℚ) (af : Option ℚ)
    (prices : List ℚ) (lambda : ℚ) (hlen : 3 ≤ prices.length)
    (hl0 : 0 < lambda) (hl1 : lambda < 1) :
    calculate_ewma lnf sqrtf af prices lambda =
      calculate_ewma_spec lnf sqrtf af prices lambda := by
  have h2 : ¬ prices.length < 2 := by omega
  have hg : ¬ (lambda ≤ 0 ∨ 1 ≤ lambda) := by
    push_neg
    exact ⟨hl0, hl1⟩
  rw [calculate_ewma, if_neg h2, if_neg hg, calculate_ewma_spec]
  cases hlr : logReturns lnf prices with
  | error e => rfl
  | ok rs =>
    have hrl : rs.length = prices.length - 1 := logReturns_length lnf prices rs hlr
    have hseed := ewmaSeed_spec rs (by omega)
    simp only []
    rw [hseed]
    show (match sqrtf (rs.foldl (ewmaStep lambda)
        (if 5 ≤ rs.length then sampleVarianceSpec (rs.take 5)
          else sampleVarianceSpec rs)) with
      | none => Except.error MMErr.numericalError
      | some std_dev =>
        match get_annualization_factor sqrtf af with
        | .error e => .error e
        | .ok factor => .ok (std_dev * factor)) = _
    have hfn : (fun v r => lambda * v + (1 - lambda) * (r * r)) =
        ewmaStep lambda := rfl
    simp only [hfn]
    cases sqrtf (rs.foldl (ewmaStep lambda)
        (if 5 ≤ rs.length then sampleVarianceSpec (rs.take 5)
          else sampleVarianceSpec rs)) with
    | none => rfl
    | some std =>
      cases get_annualization_factor sqrtf af with
      | error e => rfl
      | ok factor =>
        show Except.ok (std * factor) = Except.ok (factor * std)
        rw [mul_comm]

theorem c5_witness :
    calculate_ewma lnfC sqrtfC (some 10) [100, 101, 103] (1 / 2) =
      calculate_ewma_spec lnfC sqrtfC (some 10) [100, 101, 103] (1 / 2) :=
  c5_ewma_matches_spec lnfC sqrtfC (some 10) [100, 101, 103] (1 / 2)
    (by decide) (by norm_num) (by norm_num)

theorem parkinsonSumSpec_not_ims (lnf : ℚ → Option ℚ) :
    ∀ l : List (ℚ × ℚ), parkinsonSumSpec lnf l ≠ .error .invalidMarketState := by
  intro l
  induction l with
  | nil => simp [parkinsonSumSpec]
  | cons p rest ih =>
    obtain ⟨h, l'⟩ := p
    rw [parkinsonSumSpec]
    cases lnf (h / l') with
    | none => simp
    | some r =>
      cases hrec : parkinsonSumSpec lnf rest with
      | error e =>
        intro hcontra
        simp only [] at hcontra
        injection hcontra with h'
        rw [h'] at hrec
        exact ih hrec
      | ok s => simp

theorem parkinsonSum_error (lnf : ℚ → Option ℚ)
    (hln : ∀ x, 1 ≤ x → (lnf x).isSome) :
    ∀ hs ls : List ℚ, hs.length = ls.length →
      (∃ p ∈ hs.zip ls, p.2 ≤ 0 ∨ p.1 < p.2) →
      parkinsonSum lnf hs ls = .error .invalidMarketState := by
  intro hs
  induction hs with
  | nil =>
    intro ls _ hbad
    simp at hbad
  | cons h t ih =>
    intro ls hl hbad
    cases ls with
    | nil => simp at hl
    | cons l ls' =>
      rw [parkinsonSum]
      by_cases hbad0 : l ≤ 0 ∨ h < l
      · rcases hbad0 with hl0 | hhl
        · rw [if_pos (Or.inr hl0)]
        · by_cases hcheck : h ≤ 0 ∨ l ≤ 0
          · rw [if_pos hcheck]
          · rw [if_neg hcheck, if_pos hhl]
      · push_neg at hbad0
        obtain ⟨hl0, hhl⟩ := hbad0
        rw [if_neg (by push_neg; exact ⟨lt_of_lt_of_le hl0 hhl, hl0⟩),
          if_neg (not_lt.mpr hhl)]
        have hr1 : 1 ≤ h / l := (one_le_div hl0).mpr hhl
        obtain ⟨r, hr⟩ := Option.isSome_iff_exists.mp (hln _ hr1)
        rw [hr]
        have hbad' : ∃ p ∈ t.zip ls', p.2 ≤ 0 ∨ p.1 < p.2 := by
          rcases hbad with ⟨p, hp, hpbad⟩
          rw [List.zip_cons_cons] at hp
          rcases List.mem_cons.mp hp with hphead | hptail
          · exfalso
            rw [hphead] at hpbad
            rcases hpbad with h1 | h1
            · exact absurd h1 (not_le.mpr hl0)
            · exact absurd h1 (not_lt.mpr hhl)
          · exact ⟨p, hptail, hpbad⟩
        rw [ih ls' (by simpa using hl) hbad']

theorem parkinsonSum_ok (lnf : ℚ → Option ℚ) :
    ∀ hs ls : List ℚ, hs.length = ls.length →
      (∀ p ∈ hs.zip ls, 0 < p.2 ∧ p.2 ≤ p.1) →
      parkinsonSum lnf hs ls = parkinsonSumSpec lnf (hs.zip ls) := by
  intro hs
  induction hs with
  | nil =>
    intro ls hl _
    cases ls with
    | nil => rfl
    | cons l ls' => simp at hl
  | cons h t ih =>
    intro ls hl hgood
    cases ls with
    | nil => simp at hl
    | cons l ls' =>
      rw [List.zip_cons_cons]
      have hhead := hgood (h, l) (by rw [List.zip_cons_cons]; exact List.mem_cons_self _ _)
      obtain ⟨hl0, hhl⟩ := hhead
      rw [parkinsonSum, if_neg (by push_neg; exact ⟨lt_of_lt_of_le hl0 hhl, hl0⟩),
        if_neg (not_lt.mpr hhl), parkinsonSumSpec]
      have hrec := ih ls' (by simpa using hl)
        (fun p hp => hgood p (by rw [List.zip_cons_cons]; exact List.mem_cons_of_mem _ hp))
      cases lnf (h / l) with
      | none => rfl
      | some r =>
        rw [hrec]

theorem get_annualization_factor_not_ims (sqrtf : ℚ → Option ℚ) (af : Option ℚ) :
    get_annualization_factor sqrtf af ≠ .error .invalidMarketState := by
  cases af with
  | some f => simp [get_annualization_factor]
  | none =>
    rw [get_annualization_factor]
    cases sqrtf 252 <;> simp [liftNum]

theorem calculate_parkinson_spec_not_ims (lnf sqrtf : ℚ → Option ℚ)
    (af : Option ℚ) (highs lows : List ℚ) :
    calculate_parkinson_spec lnf sqrtf af highs lows ≠
      .error .invalidMarketState := by
  rw [calculate_parkinson_spec]
  cases hsum : parkinsonSumSpec lnf (highs.zip lows) with
  | error e =>
    intro h
    injection h with h'
    rw [h'] at hsum
    exact parkinsonSumSpec_not_ims lnf _ hsum
  | ok s =>
    cases lnf 2 with
    | none => simp [liftNum]
    | some l2 =>
      show ((match sqrtf (s / (4 * (highs.length : ℚ) * l2)) with
        | none => Except.error MMErr.numericalError
        | some std_dev =>
          match get_annualization_factor sqrtf af with
          | Except.error e => Except.error e
          | Except.ok factor => Except.ok (factor * std_dev)) : Except MMErr ℚ) ≠
        Except.error MMErr.invalidMarketState
      cases sqrtf (s / (4 * (highs.length : ℚ) * l2)) with
      | none => simp
      | some std =>
        cases hfac : get_annualization_factor sqrtf af with
        | error e =>
          intro h
          simp only [] at h
          injection h with h'
          rw [h'] at hfac
          exact get_annualization_factor_not_ims sqrtf af hfac
        | ok f => simp

theorem parkinson_eq_spec (lnf sqrtf : ℚ → Option ℚ) (af : Option ℚ)
    (highs lows : List ℚ)
    (hln2 : ∀ r, lnf 2 = some r → 0 < r)
    (hlen : highs.length = lows.length) (hne : highs ≠ [])
    (hgood : ∀ p ∈ highs.zip lows, 0 < p.2 ∧ p.2 ≤ p.1) :
    calculate_parkinson lnf sqrtf af highs lows =
      calculate_parkinson_spec lnf sqrtf af highs lows := by
  rw [calculate_parkinson, if_neg (fun hcon => hcon hlen), if_neg hne,
    parkinsonSum_ok lnf highs lows hlen hgood, calculate_parkinson_spec]
  cases parkinsonSumSpec lnf (highs.zip lows) with
  | error e => rfl
  | ok s =>
    cases hl2 : lnf 2 with
    | none => rfl
    | some l2 =>
      have hnlen : (0 : ℚ) < (highs.length : ℚ) := by
        have h1 : 0 < highs.length := List.length_pos.mpr hne
        exact_mod_cast h1
      have hl2pos := hln2 l2 hl2
      have hdvd : (4 * (highs.length : ℚ) * l2) ≠ 0 :=
        ne_of_gt (by positivity)
      show ((match decDiv s (4 * (highs.length : ℚ) * l2) with
        | Except.error e => Except.error e
        | Except.ok variance =>
          match sqrtf variance with
          | none => Except.error MMErr.numericalError
          | some std_dev =>
            match get_annualization_factor sqrtf af with
            | Except.error e => Except.error e
            | Except.ok factor => Except.ok (std_dev * factor)) : Except MMErr ℚ) = _
      rw [decDiv_ok _ _ hdvd]
      show ((match sqrtf (s / (4 * (highs.length : ℚ) * l2)) with
        | none => Except.error MMErr.numericalError
        | some std_dev =>
          match get_annualization_factor sqrtf af with
          | Except.error e => Except.error e
          | Except.ok factor => Except.ok (std_dev * factor)) : Except MMErr ℚ) =
        ((match sqrtf (s / (4 * (highs.length : ℚ) * l2)) with
        | none => Except.error MMErr.numericalError
        | some std_dev =>
          match get_annualization_factor sqrtf af with
          | Except.error e => Except.error e
          | Except.ok factor => Except.ok (factor * std_dev)) : Except MMErr ℚ)
      cases sqrtf (s / (4 * (highs.length : ℚ) * l2)) with
      | none => rfl
      | some std =>
        cases get_annualization_factor sqrtf af with
        | error e => rfl
        | ok factor =>
          show Except.ok (std * factor) = Except.ok (factor * std)
          rw [mul_comm]

/-- C6: `calculate_parkinson` fails with `InvalidMarketState` exactly when the
high and low lists have different lengths, or are empty, or some paired entry
violates `high >= low > 0`; otherwise it returns the annualization factor
times the square root of the sum of squared log ranges divided by
`4 * n * ln 2` (the spec-modelled `calculate_parkinson_spec`). -/
theorem c6_parkinson_errors (lnf sqrtf : ℚ → Option ℚ) (af : Option ℚ)
    (high_prices low_prices : List ℚ)
    (hln : ∀ x, 1 ≤ x → (lnf x).isSome)
    (hln2 : ∀ r, lnf 2 = some r → 0 < r) :
    (calculate_parkinson lnf sqrtf af high_prices low_prices =
        .error .invalidMarketState ↔
      high_prices.length ≠ low_prices.length ∨ high_prices = [] ∨
        ∃ p ∈ high_prices.zip low_prices, p.2 ≤ 0 ∨ p.1 < p.2) ∧
    (high_prices.length = low_prices.length → high_prices ≠ [] →
      (∀ p ∈ high_prices.zip low_prices, 0 < p.2 ∧ p.2 ≤ p.1) →
      calculate_parkinson lnf sqrtf af high_prices low_prices =
        calculate_parkinson_spec lnf sqrtf af high_prices low_prices) := by
  constructor
  · constructor
    · intro h
      by_contra hq
      push_neg at hq
      obtain ⟨hlen, hne, hgood⟩ := hq
      rw [parkinson_eq_spec lnf sqrtf af _ _ hln2 hlen hne hgood] at h
      exact calculate_parkinson_spec_not_ims lnf sqrtf af _ _ h
    · intro hviol
      by_cases hlen : high_prices.length = low_prices.length
      · rcases hviol with hv | hv | hv
        · exact absurd hlen hv
        · rw [calculate_parkinson, if_neg (fun hcon => hcon hlen), if_pos hv]
        · rw [calculate_parkinson, if_neg (fun hcon => hcon hlen)]
          by_cases hemp : high_prices = []
          · rw [if_pos hemp]
          · rw [if_neg hemp, parkinsonSum_error lnf hln _ _ hlen hv]
      · rw [calculate_parkinson, if_pos hlen]
  · intro hlen hne hgood
    exact parkinson_eq_spec lnf sqrtf af _ _ hln2 hlen hne hgood

theorem c6_witness :
    (calculate_parkinson lnfC sqrtfC (some 10) [102, 103] [99, 100] =
        .error .invalidMarketState ↔
      ([102, 103] : List ℚ).length ≠ ([99, 100] : List ℚ).length ∨
        ([102, 103] : List ℚ) = [] ∨
        ∃ p ∈ ([102, 103] : List ℚ).zip ([99, 100] : List ℚ),
          p.2 ≤ 0 ∨ p.1 < p.2) ∧
    (([102, 103] : List ℚ).length = ([99, 100] : List ℚ).length →
      ([102, 103] : List ℚ) ≠ [] →
      (∀ p ∈ ([102, 103] : List ℚ).zip ([99, 100] : List ℚ),
        0 < p.2 ∧ p.2 ≤ p.1) →
      calculate_parkinson lnfC sqrtfC (some 10) [102, 103] [99, 100] =
        calculate_parkinson_spec lnfC sqrtfC (some 10) [102, 103] [99, 100]) :=
  c6_parkinson_errors lnfC sqrtfC (some 10) [102, 103] [99, 100]
    (by
      intro x hx
      rw [lnfC, if_pos (by linarith)]
      rfl)
    (by
      intro r hr
      rw [lnfC, if_pos (by norm_num)] at hr
      injection hr with h'
      rw [← h']
      norm_num)

theorem c4_counterexample :
    calculate_simple lnfC sqrtfC none [100, 101] = .error .divisionByZero ∧
    calculate_ewma lnfC sqrtfC none [100, 101] (94 / 100) =
      .error .divisionByZero ∧
    calculate_simple lnfC sqrtfC (some 10) [1, 2, 4] = .ok 0 := by
  refine ⟨?_, ?_, ?_⟩
  · norm_num [calculate_simple, logReturns, lnfC, decDiv, squaredDeviations]
  · norm_num [calculate_ewma, logReturns, lnfC, decDiv, squaredDeviations,
      ewmaSeed]
  · norm_num [calculate_simple, logReturns, lnfC, sqrtfC, decDiv,
      squaredDeviations, get_annualization_factor, liftNum]

theorem decDiv_zero (x : ℚ) : decDiv x 0 = .error .divisionByZero := by
  unfold decDiv
  rw [if_pos rfl]

theorem calculate_simple_shape (lnf sqrtf : ℚ → Option ℚ) (af : Option ℚ)
    (prices rs : List ℚ) (hlen : ¬ prices.length < 2)
    (hrs : logReturns lnf prices = .ok rs) (hne : (rs.length : ℚ) ≠ 0) :
    calculate_simple lnf sqrtf af prices =
      (match decDiv (squaredDeviations rs (rs.sum / (rs.length : ℚ)))
          ((rs.length - 1 : ℕ) : ℚ) with
      | Except.error e => Except.error e
      | Except.ok variance =>
        match sqrtf variance with
        | none => Except.error MMErr.numericalError
        | some std_dev =>
          match get_annualization_factor sqrtf af with
          | Except.error e => Except.error e
          | Except.ok factor => Except.ok (std_dev * factor)) := by
  rw [calculate_simple, if_neg hlen, hrs]
  show ((match decDiv rs.sum (rs.length : ℚ) with
    | Except.error e => Except.error e
    | Except.ok mean =>
      match decDiv (squaredDeviations rs mean) ((rs.length - 1 : ℕ) : ℚ) with
      | Except.error e => Except.error e
      | Except.ok variance =>
        match sqrtf variance with
        | none => Except.error MMErr.numericalError
        | some std_dev =>
          match get_annualization_factor sqrtf af with
          | Except.error e => Except.error e
          | Except.ok factor => Except.ok (std_dev * factor)) : Except MMErr ℚ) = _
  rw [decDiv_ok _ _ hne]

theorem calculate_simple_div0 (lnf sqrtf : ℚ → Option ℚ) (af : Option ℚ)
    (prices rs : List ℚ) (hlen : ¬ prices.length < 2)
    (hrs : logReturns lnf prices = .ok rs) (h1 : rs.length = 1) :
    calculate_simple lnf sqrtf af prices = .error .divisionByZero := by
  rw [calculate_simple_shape lnf sqrtf af prices rs hlen hrs (by rw [h1]; norm_num)]
  rw [show ((rs.length - 1 : ℕ) : ℚ) = 0 by rw [h1]; norm_num, decDiv_zero]

theorem calculate_simple_value (lnf sqrtf : ℚ → Option ℚ) (af : Option ℚ)
    (prices rs : List ℚ) (std f : ℚ) (hlen : ¬ prices.length < 2)
    (hrs : logReturns lnf prices = .ok rs) (h2 : 2 ≤ rs.length)
    (hsq : sqrtf (squaredDeviations rs (rs.sum / (rs.length : ℚ)) /
      ((rs.length - 1 : ℕ) : ℚ)) = some std)
    (hfac : get_annualization_factor sqrtf af = .ok f) :
    calculate_simple lnf sqrtf af prices = .ok (std * f) := by
  rw [calculate_simple_shape lnf sqrtf af prices rs hlen hrs
    (Nat.cast_ne_zero.mpr (by omega))]
  rw [decDiv_ok _ _ (Nat.cast_ne_zero.mpr (by omega : rs.length - 1 ≠ 0))]
  show ((match sqrtf (squaredDeviations rs (rs.sum / (rs.length : ℚ)) /
      ((rs.length - 1 : ℕ) : ℚ)) with
    | none => Except.error MMErr.numericalError
    | some std_dev =>
      match get_annualization_factor sqrtf af with
      | Except.error e => Except.error e
      | Except.ok factor => Except.ok (std_dev * factor)) : Except MMErr ℚ) = _
  rw [hsq, hfac]

theorem squaredDeviations_nonneg (rs : List ℚ) (m : ℚ) :
    0 ≤ squaredDeviations rs m := by
  unfold squaredDeviations
  apply List.sum_nonneg
  intro x hx
  obtain ⟨r, -, hr⟩ := List.mem_map.mp hx
  rw [← hr]
  exact mul_self_nonneg _

theorem squaredDeviations_pos (rs : List ℚ) (m : ℚ)
    (h : ∃ r ∈ rs, r ≠ m) : 0 < squaredDeviations rs m := by
  obtain ⟨r, hmem, hne⟩ := h
  unfold squaredDeviations
  have hx : (r - m) * (r - m) ∈ rs.map (fun r => (r - m) * (r - m)) :=
    List.mem_map_of_mem _ hmem
  have hle := List.single_le_sum (l := rs.map (fun r => (r - m) * (r - m)))
    (fun x hxm => by
      obtain ⟨r', -, hr'⟩ := List.mem_map.mp hxm
      rw [← hr']
      exact mul_self_nonneg _) _ hx
  have hpos : 0 < (r - m) * (r - m) := mul_self_pos.mpr (sub_ne_zero.mpr hne)
  linarith

theorem exists_ne_mean (rs : List ℚ) (m : ℚ)
    (h : ∃ r ∈ rs, ∃ r' ∈ rs, r ≠ r') : ∃ r ∈ rs, r ≠ m := by
  obtain ⟨a, ha, b, hb, hab⟩ := h
  by_cases hm : a = m
  · exact ⟨b, hb, fun hbm => hab (hm.trans hbm.symm)⟩
  · exact ⟨a, ha, hm⟩

theorem logReturns_nonzero (lnf : ℚ → Option ℚ)
    (hln1 : ∀ x r, 0 < x → lnf x = some r → x ≠ 1 → r ≠ 0) :
    ∀ ps rs : List ℚ, (∀ p ∈ ps, 0 < p) → logReturns lnf ps = .ok rs →
      (∃ a ∈ ps, ∃ b ∈ ps, a ≠ b) → ∃ r ∈ rs, r ≠ 0 := by
  intro ps
  induction ps with
  | nil =>
    intro rs _ _ hd
    simp at hd
  | cons p0 tl ih =>
    cases tl with
    | nil =>
      intro rs _ _ hd
      simp at hd
    | cons p1 rest =>
      intro rs hpos hok hd
      obtain ⟨-, r, rs', hlnr, hrec, hrs⟩ :=
        (logReturns_cons_cons lnf p0 p1 rest rs).mp hok
      by_cases hne : p0 = p1
      · have hstep : ∀ x : ℚ, x ∈ p0 :: p1 :: rest → x ∈ p1 :: rest := by
          intro x hx
          rcases List.mem_cons.mp hx with h | h
          · exact List.mem_cons.mpr (Or.inl (h.trans hne))
          · exact h
        obtain ⟨a, ha, b, hb, hab⟩ := hd
        obtain ⟨r', hr', hrne⟩ := ih rs'
          (fun p hp => hpos p (List.mem_cons_of_mem _ hp)) hrec
          ⟨a, hstep a ha, b, hstep b hb, hab⟩
        exact ⟨r', by rw [hrs]; exact List.mem_cons_of_mem _ hr', hrne⟩
      · have hp0 := hpos p0 (by simp)
        have hp1 := hpos p1 (by simp)
        have hratio : 0 < p1 / p0 := div_pos hp1 hp0
        have hrne : p1 / p0 ≠ 1 := by
          intro hr1
          apply hne
          field_simp at hr1
          exact hr1.symm
        exact ⟨r, by rw [hrs]; exact List.mem_cons_self _ _,
          hln1 _ r hratio hlnr hrne⟩

theorem ewma_foldl_nonneg (lambda : ℚ) (h0 : 0 ≤ lambda) (h1 : lambda ≤ 1) :
    ∀ (l : List ℚ) (v : ℚ), 0 ≤ v → 0 ≤ l.foldl (ewmaStep lambda) v := by
  intro l
  induction l with
  | nil =>
    intro v hv
    exact hv
  | cons r t ih =>
    intro v hv
    show 0 ≤ t.foldl (ewmaStep lambda) (ewmaStep lambda v r)
    apply ih
    unfold ewmaStep
    have ha := mul_nonneg h0 hv
    have hb := mul_nonneg (by linarith : (0:ℚ) ≤ 1 - lambda) (mul_self_nonneg r)
    linarith

theorem ewma_foldl_pos (lambda : ℚ) (h0 : 0 < lambda) (h1 : lambda < 1) :
    ∀ (l : List ℚ) (v : ℚ), 0 < v → 0 < l.foldl (ewmaStep lambda) v := by
  intro l
  induction l with
  | nil =>
    intro v hv
    exact hv
  | cons r t ih =>
    intro v hv
    show 0 < t.foldl (ewmaStep lambda) (ewmaStep lambda v r)
    apply ih
    unfold ewmaStep
    have ha := mul_pos h0 hv
    have hb := mul_nonneg (by linarith : (0:ℚ) ≤ 1 - lambda) (mul_self_nonneg r)
    linarith

theorem ewma_foldl_pos_of_nonzero (lambda : ℚ) (h0 : 0 < lambda)
    (h1 : lambda < 1) :
    ∀ (l : List ℚ) (v : ℚ), 0 ≤ v → (∃ r ∈ l, r ≠ 0) →
      0 < l.foldl (ewmaStep lambda) v := by
  intro l
  induction l with
  | nil =>
    intro v _ h
    simp at h
  | cons r t ih =>
    intro v hv hex
    by_cases hr : r = 0
    · obtain ⟨x, hx, hxne⟩ := hex
      rcases List.mem_cons.mp hx with he | ht
      · exact absurd (he.trans hr) hxne
      · show 0 < t.foldl (ewmaStep lambda) (ewmaStep lambda v r)
        apply ih _ ?_ ⟨x, ht, hxne⟩
        unfold ewmaStep
        have ha := mul_nonneg (le_of_lt h0) hv
        have hb := mul_nonneg (by linarith : (0:ℚ) ≤ 1 - lambda)
          (mul_self_nonneg r)
        linarith
    · show 0 < t.foldl (ewmaStep lambda) (ewmaStep lambda v r)
      apply ewma_foldl_pos lambda h0 h1
      unfold ewmaStep
      have ha := mul_nonneg (le_of_lt h0) hv
      have hb := mul_pos (by linarith : (0:ℚ) < 1 - lambda)
        (mul_self_pos.mpr hr)
      linarith

theorem sampleVarianceSpec_nonneg (rs : List ℚ) (h2 : 2 ≤ rs.length) :
    0 ≤ sampleVarianceSpec rs := by
  unfold sampleVarianceSpec
  apply div_nonneg (squaredDeviations_nonneg _ _)
  have hc : (2:ℚ) ≤ (rs.length : ℚ) := by exact_mod_cast h2
  linarith

theorem ewmaSeed_nonneg (rs : List ℚ) (h2 : 2 ≤ rs.length) :
    ∃ s, ewmaSeed rs = .ok s ∧ 0 ≤ s := by
  rw [ewmaSeed_spec rs h2]
  refine ⟨_, rfl, ?_⟩
  by_cases h5 : 5 ≤ rs.length
  · rw [if_pos h5]
    apply sampleVarianceSpec_nonneg
    rw [List.length_take]
    omega
  · rw [if_neg h5]
    exact sampleVarianceSpec_nonneg rs h2

theorem ewmaSeed_div0 (rs : List ℚ) (h1 : rs.length = 1) :
    ewmaSeed rs = .error .divisionByZero := by
  rw [ewmaSeed, if_neg (by omega), decDiv_ok _ _ (by rw [h1]; norm_num)]
  show decDiv (squaredDeviations rs (rs.sum / (rs.length : ℚ)))
    ((rs.length - 1 : ℕ) : ℚ) = _
  rw [show ((rs.length - 1 : ℕ) : ℚ) = 0 by rw [h1]; norm_num, decDiv_zero]

theorem calculate_ewma_shape (lnf sqrtf : ℚ → Option ℚ) (af : Option ℚ)
    (prices rs : List ℚ) (lambda : ℚ) (hlen : ¬ prices.length < 2)
    (hg : ¬ (lambda ≤ 0 ∨ 1 ≤ lambda))
    (hrs : logReturns lnf prices = .ok rs) :
    calculate_ewma lnf sqrtf af prices lambda =
      (match ewmaSeed rs with
      | Except.error e => Except.error e
      | Except.ok initial_variance =>
        match sqrtf (rs.foldl (ewmaStep lambda) initial_variance) with
        | none => Except.error MMErr.numericalError
        | some std_dev =>
          match get_annualization_factor sqrtf af with
          | Except.error e => Except.error e
          | Except.ok factor => Except.ok (std_dev * factor)) := by
  rw [calculate_ewma, if_neg hlen, if_neg hg, hrs]

theorem calculate_ewma_div0 (lnf sqrtf : ℚ → Option ℚ) (af : Option ℚ)
    (prices rs : List ℚ) (lambda : ℚ) (hlen : ¬ prices.length < 2)
    (hg : ¬ (lambda ≤ 0 ∨ 1 ≤ lambda))
    (hrs : logReturns lnf prices = .ok rs) (h1 : rs.length = 1) :
    calculate_ewma lnf sqrtf af prices lambda = .error .divisionByZero := by
  rw [calculate_ewma_shape lnf sqrtf af prices rs lambda hlen hg hrs,
    ewmaSeed_div0 rs h1]

theorem calculate_ewma_value (lnf sqrtf : ℚ → Option ℚ) (af : Option ℚ)
    (prices rs : List ℚ) (lambda seed std f : ℚ) (hlen : ¬ prices.length < 2)
    (hg : ¬ (lambda ≤ 0 ∨ 1 ≤ lambda))
    (hrs : logReturns lnf prices = .ok rs)
    (hseed : ewmaSeed rs = .ok seed)
    (hsq : sqrtf (rs.foldl (ewmaStep lambda) seed) = some std)
    (hfac : get_annualization_factor sqrtf af = .ok f) :
    calculate_ewma lnf sqrtf af prices lambda = .ok (std * f) := by
  rw [calculate_ewma_shape lnf sqrtf af prices rs lambda hlen hg hrs, hseed]
  show ((match sqrtf (rs.foldl (ewmaStep lambda) seed) with
    | none => Except.error MMErr.numericalError
    | some std_dev =>
      match get_annualization_factor sqrtf af with
      | Except.error e => Except.error e
      | Except.ok factor => Except.ok (std_dev * factor)) : Except MMErr ℚ) = _
  rw [hsq, hfac]

/-- C4 (amended): under a `decimal_ln` stand-in defined on the positives,
nonzero away from ratio 1, a `decimal_sqrt` stand-in defined and positive on
the positives, and a positive annualization factor: `calculate_simple`
returns a positive value on every list of at least 3 positive prices whose
log returns are not all equal, and `calculate_ewma` returns a positive value
on every list of at least 3 positive prices containing two distinct values,
for any decay factor strictly between 0 and 1; on every list of exactly 2
positive prices, the sample-variance denominator `n - 1` is zero, and both
estimators hit the division by zero (a panic in the source). -/
theorem c4_amended_positivity (lnf sqrtf : ℚ → Option ℚ) (af : Option ℚ)
    (hln : ∀ x, 0 < x → (lnf x).isSome)
    (hln1 : ∀ x r, 0 < x → lnf x = some r → x ≠ 1 → r ≠ 0)
    (hsq : ∀ x, 0 ≤ x → ∃ s, sqrtf x = some s ∧ (0 < x → 0 < s))
    (hfac : ∃ f, get_annualization_factor sqrtf af = .ok f ∧ 0 < f) :
    (∀ prices : List ℚ, 3 ≤ prices.length → (∀ p ∈ prices, 0 < p) →
      (∀ rs, logReturns lnf prices = .ok rs → ∃ r ∈ rs, ∃ r' ∈ rs, r ≠ r') →
      ∃ v, calculate_simple lnf sqrtf af prices = .ok v ∧ 0 < v) ∧
    (∀ (prices : List ℚ) (lambda : ℚ), 3 ≤ prices.length →
      (∀ p ∈ prices, 0 < p) → (∃ a ∈ prices, ∃ b ∈ prices, a ≠ b) →
      0 < lambda → lambda < 1 →
      ∃ v, calculate_ewma lnf sqrtf af prices lambda = .ok v ∧ 0 < v) ∧
    (∀ p0 p1 : ℚ, 0 < p0 → 0 < p1 →
      calculate_simple lnf sqrtf af [p0, p1] = .error .divisionByZero ∧
      ∀ lambda : ℚ, 0 < lambda → lambda < 1 →
        calculate_ewma lnf sqrtf af [p0, p1] lambda =
          .error .divisionByZero) := by
  refine ⟨?_, ?_, ?_⟩
  · intro prices hlen3 hpos hdist
    obtain ⟨rs, hrs⟩ := logReturns_total lnf hln prices hpos
    have hrl := logReturns_length lnf prices rs hrs
    have h2 : 2 ≤ rs.length := by omega
    have hvarpos : 0 < squaredDeviations rs (rs.sum / (rs.length : ℚ)) /
        ((rs.length - 1 : ℕ) : ℚ) := by
      apply div_pos
      · exact squaredDeviations_pos _ _ (exists_ne_mean _ _ (hdist rs hrs))
      · exact_mod_cast Nat.cast_pos.mpr (show 0 < rs.length - 1 by omega)
    obtain ⟨std, hstd, hstdpos⟩ := hsq _ (le_of_lt hvarpos)
    obtain ⟨f, hf, hfpos⟩ := hfac
    exact ⟨std * f,
      calculate_simple_value lnf sqrtf af prices rs std f (by omega) hrs h2
        hstd hf,
      mul_pos (hstdpos hvarpos) hfpos⟩
  · intro prices lambda hlen3 hpos hdist hl0 hl1
    obtain ⟨rs, hrs⟩ := logReturns_total lnf hln prices hpos
    have hrl := logReturns_length lnf prices rs hrs
    have h2 : 2 ≤ rs.length := by omega
    obtain ⟨seed, hseed, hseednn⟩ := ewmaSeed_nonneg rs h2
    have hrne : ∃ r ∈ rs, r ≠ 0 :=
      logReturns_nonzero lnf hln1 prices rs hpos hrs hdist
    have hfold : 0 < rs.foldl (ewmaStep lambda) seed :=
      ewma_foldl_pos_of_nonzero lambda hl0 hl1 rs seed hseednn hrne
    obtain ⟨std, hstd, hstdpos⟩ := hsq _ (le_of_lt hfold)
    obtain ⟨f, hf, hfpos⟩ := hfac
    exact ⟨std * f,
      calculate_ewma_value lnf sqrtf af prices rs lambda seed std f (by omega)
        (by push_neg; exact ⟨hl0, hl1⟩) hrs hseed hstd hf,
      mul_pos (hstdpos hfold) hfpos⟩
  · intro p0 p1 h0 h1
    have hpos : ∀ p ∈ ([p0, p1] : List ℚ), 0 < p := by
      intro p hp
      rcases List.mem_cons.mp hp with h | h
      · rw [h]
        exact h0
      · rw [List.mem_singleton.mp h]
        exact h1
    obtain ⟨rs, hrs⟩ := logReturns_total lnf hln [p0, p1] hpos
    have hrl := logReturns_length lnf _ rs hrs
    have hone : rs.length = 1 := by simpa using hrl
    refine ⟨calculate_simple_div0 lnf sqrtf af _ rs (by simp) hrs hone, ?_⟩
    intro lambda hl0 hl1
    exact calculate_ewma_div0 lnf sqrtf af _ rs lambda (by simp)
      (by push_neg; exact ⟨hl0, hl1⟩) hrs hone

theorem c4_witness :
    (∃ v, calculate_simple lnfC sqrtfC (some 10) [100, 101, 103] = .ok v ∧
      0 < v) ∧
    (∃ v, calculate_ewma lnfC sqrtfC (some 10) [100, 101, 103] (1 / 2) =
      .ok v ∧ 0 < v) ∧
    (calculate_simple lnfC sqrtfC (some 10) [100, 101] =
      .error .divisionByZero ∧
      calculate_ewma lnfC sqrtfC (some 10) [100, 101] (1 / 2) =
        .error .divisionByZero) := by
  have hln : ∀ x : ℚ, 0 < x → (lnfC x).isSome := by
    intro x hx
    rw [lnfC, if_pos hx]
    rfl
  have hln1 : ∀ x r : ℚ, 0 < x → lnfC x = some r → x ≠ 1 → r ≠ 0 := by
    intro x r hx hr hx1
    rw [lnfC, if_pos hx] at hr
    injection hr with h'
    rw [← h']
    intro hcon
    exact hx1 (by linarith [sub_eq_zero.mp hcon])
  have hsq : ∀ x : ℚ, 0 ≤ x → ∃ s, sqrtfC x = some s ∧ (0 < x → 0 < s) := by
    intro x hx
    exact ⟨x, by rw [sqrtfC, if_pos hx], fun h => h⟩
  have hfac : ∃ f, get_annualization_factor sqrtfC (some 10) = .ok f ∧
      (0:ℚ) < f := ⟨10, rfl, by norm_num⟩
  obtain ⟨hA, hB, hC⟩ := c4_amended_positivity lnfC sqrtfC (some 10) hln hln1
    hsq hfac
  refine ⟨?_, ?_, ?_⟩
  · apply hA [100, 101, 103] (by decide) (by norm_num)
    intro rs hrs
    have hval : logReturns lnfC [100, 101, 103] =
        .ok [101 / 100 - 1, 103 / 101 - 1] := by
      norm_num [logReturns, lnfC]
    rw [hval] at hrs
    injection hrs with h'
    rw [← h']
    refine ⟨101 / 100 - 1, by simp, 103 / 101 - 1, by simp, by norm_num⟩
  · exact hB [100, 101, 103] (1 / 2) (by decide) (by norm_num)
      ⟨100, by simp, 101, by simp, by norm_num⟩ (by norm_num) (by norm_num)
  · exact ⟨(hC 100 101 (by norm_num) (by norm_num)).1,
      (hC 100 101 (by norm_num) (by norm_num)).2 (1 / 2) (by norm_num)
        (by norm_num)⟩
